import Mathlib

/-!
Verification of the lost-and-found Flask application (`app.py`).

The application is shallowly embedded over `List Char` in place of Python
`str`.  The Python string primitives used by the source (`str.strip`,
`str.split`, `str.replace`, `" ".join`) are modelled by `pyStrip`,
`pySplitC`, `pyReplace` and `joinSpace`; the SQLite `LIKE` operator used by
the `/search` and `/chat` queries is modelled by `likeMatch` (`%` matches
any character sequence, `_` matches one character, comparison is
ASCII-case-insensitive, matching SQLite's default behaviour for the
patterns `'%' + text + '%'` the code builds).  The external chat-completion
service is an oracle argument of type `Completion`: either the returned
text or the raised exception's message.  The database table is a list of
rows in insertion order.
-/

/-- Python whitespace (the characters removed by `str.strip()`). -/
def isPyWs (c : Char) : Bool :=
  c = ' ' || c = '\t' || c = '\n' || c = '\r' || c = '\x0b' || c = '\x0c'

/-- Python `s.strip()`: remove leading and trailing whitespace. -/
def pyStrip (s : List Char) : List Char :=
  ((s.dropWhile isPyWs).reverse.dropWhile isPyWs).reverse

/-- Python `s.split(sep)` for a one-character separator: keeps empty parts,
`"".split(sep) = [""]`. -/
def pySplitC (sep : Char) : List Char → List (List Char)
  | [] => [[]]
  | c :: s =>
    if c = sep then [] :: pySplitC sep s
    else
      match pySplitC sep s with
      | [] => [[c]]
      | l :: ls => (c :: l) :: ls

/-- The lines of a text, in the sense of Python `text.split("\n")`. -/
def linesOf (s : List Char) : List (List Char) := pySplitC '\n' s

/-- Python `" ".join(parts)`. -/
def joinSpace : List (List Char) → List Char
  | [] => []
  | [l] => l
  | l :: ls => l ++ ' ' :: joinSpace ls

/-- Fuel-indexed worker for `pyReplace`; the fuel is an upper bound on the
number of scanning steps and makes the recursion structural. -/
def pyReplaceF (pat : List Char) : Nat → List Char → List Char
  | _, [] => []
  | 0, c :: s => c :: s
  | fuel + 1, c :: s =>
    if pat.isPrefixOf (c :: s) then
      pyReplaceF pat fuel (List.drop (pat.length - 1) s)
    else
      c :: pyReplaceF pat fuel s

/-- Python `s.replace(pat, "")` for a nonempty pattern `pat`: delete every
(greedy, left-to-right, non-overlapping) occurrence of `pat` in `s`. -/
def pyReplace (s pat : List Char) : List Char := pyReplaceF pat s.length s

/-- Shorthand for string literals as character lists. -/
def chars (s : String) : List Char := s.data

/-- The literal header label `"Description:"` (line 95 of `app.py`). -/
def descHeader : List Char := chars "Description:"

/-- The literal header label `"Tags:"` (line 95 of `app.py`). -/
def tagsHeader : List Char := chars "Tags:"

/-- Line 95: `clean_text = ai_text.replace("Description:", "").replace("Tags:", "")`. -/
def cleanText (s : List Char) : List Char :=
  pyReplace (pyReplace s descHeader) tagsHeader

/-- Line 103: `"," in line and len(line.split(",")) >= 3` — the loop's test
for classifying a (stripped) line as the tag line. -/
def isTagLine (l : List Char) : Bool :=
  l.contains ',' && decide (3 ≤ (pySplitC ',' l).length)

/-- The fallback marker `"AI generated"` (lines 109 and 113). -/
def aiGenerated : List Char := chars "AI generated"

/-- Lines 101–106: the parsing loop.  The accumulator carries
`(description_lines, tag_line)`; a qualifying line overwrites `tag_line`,
any other line is appended to `description_lines`. -/
def parseLines : List (List Char) → List (List Char) × List Char → List (List Char) × List Char
  | [], acc => acc
  | rawLine :: rest, (descLines, tagLine) =>
    let line := pyStrip rawLine
    if isTagLine line then parseLines rest (descLines, line)
    else parseLines rest (descLines ++ [line], tagLine)

/-- Lines 94–109: the Response Parser.  Input is `ai_text` (the completion
text); output is the pair `(description, tags)`. -/
def parseAiText (aiText : List Char) : List Char × List Char :=
  let lines := pySplitC '\n' (pyStrip (cleanText aiText))
  let acc := parseLines lines ([], [])
  let description := pyStrip (joinSpace acc.1)
  let tags := if acc.2 ≠ [] then pyStrip acc.2 else aiGenerated
  (description, tags)

/-- Per-line effect of the parser's cleaning: remove the two header labels
and strip whitespace.  Used to state what the parser does to the lines of
the completion text. -/
def cleanLine (l : List Char) : List Char :=
  pyStrip (pyReplace (pyReplace l descHeader) tagsHeader)

/-- A row of the `items` table (the autoincrement `id` is represented by
the row's position in the list). -/
structure Item where
  item_name : List Char
  description : List Char
  tags : List Char
  location : List Char
deriving DecidableEq

/-- ASCII lower-casing, as applied by SQLite's default `LIKE`. -/
def toLowerAscii (c : Char) : Char :=
  if 'A' ≤ c ∧ c ≤ 'Z' then Char.ofNat (c.toNat + 32) else c

/-- Map `toLowerAscii` over a string. -/
def lowerList (s : List Char) : List Char := s.map toLowerAscii

/-- SQLite `text LIKE pattern` (default behaviour): `%` matches any
sequence of characters, `_` matches exactly one character, and other
characters match ASCII-case-insensitively. -/
def likeMatch : List Char → List Char → Bool
  | [], s => s.isEmpty
  | p :: ps, s =>
    if p = '%' then (s.tails).any (fun t => likeMatch ps t)
    else
      match s with
      | [] => false
      | c :: s' => (p = '_' || (toLowerAscii p == toLowerAscii c)) && likeMatch ps s'

/-- The pattern `f"%{q}%"` the handlers bind to every `LIKE` (lines 160 and
183–184). -/
def likePattern (q : List Char) : List Char := '%' :: (q ++ ['%'])

/-- One row of the four-column `OR`-combined `LIKE` condition used by both
the `/search` query (lines 154–160) and the `/chat` query (lines 177–184). -/
def itemLikeMatch (it : Item) (q : List Char) : Bool :=
  likeMatch (likePattern q) it.item_name ||
  likeMatch (likePattern q) it.description ||
  likeMatch (likePattern q) it.tags ||
  likeMatch (likePattern q) it.location

/-- Whether `q` occurs as a contiguous subsequence (substring)
of `s`. -/
def containsSeq (q s : List Char) : Bool := (s.tails).any (fun t => q.isPrefixOf t)

/-- The query is a case-insensitive (ASCII) substring of at least one of
the four text columns — the spec's description of a search match. -/
def ciAnyColumn (q : List Char) (it : Item) : Bool :=
  containsSeq (lowerList q) (lowerList it.item_name) ||
  containsSeq (lowerList q) (lowerList it.description) ||
  containsSeq (lowerList q) (lowerList it.tags) ||
  containsSeq (lowerList q) (lowerList it.location)

/-- The message is a (case-sensitive) substring of at least one of the four
text columns of a row. -/
def subAnyColumn (q : List Char) (it : Item) : Bool :=
  containsSeq q it.item_name ||
  containsSeq q it.description ||
  containsSeq q it.tags ||
  containsSeq q it.location

/-- Result of one call to the external completion service: the returned
text, or the raised exception's message. -/
inductive Completion where
  | ok (text : List Char)
  | fail (msg : List Char)
deriving DecidableEq

/-- A handler's HTTP-level result: a plain-text body or a redirect. -/
inductive HttpReply where
  | body (text : List Char)
  | redirect (path : List Char)
deriving DecidableEq

/-- Outcome of one POST to `/report`: the reply, the table contents after
the request, and whether the external completion service was invoked. -/
structure ReportResult where
  reply : HttpReply
  db : List Item
  calledApi : Bool
deriving DecidableEq

/-- Lines 119–122: the pre-insert existence check
`SELECT * FROM items WHERE item_name = ? AND location = ? AND description = ?`. -/
def existsTriple (db : List Item) (name loc desc : List Char) : Bool :=
  db.any (fun it => decide (it.item_name = name ∧ it.location = loc ∧ it.description = desc))

/-- Lines 63–78: the prompt template (f-string) sent to the completion
service. -/
def buildPrompt (itemName keywords : List Char) : List Char :=
  chars "\nGenerate:\n1) A detailed searchable description\n2) 5 short tags (comma separated)\n\nItem Name: " ++
  itemName ++ chars "\nKeywords: " ++ keywords ++
  chars "\n\nFormat exactly like this:\n\nDescription:\n<text>\n\nTags:\ntag1, tag2, tag3, tag4, tag5\n"

/-- Lines 52–139: the `/report` POST handler.  `completion` is the outcome
the external service would produce for this request's prompt. -/
def report (db : List Item) (itemNameRaw keywordsRaw locationRaw : List Char)
    (completion : Completion) : ReportResult :=
  let item_name := pyStrip itemNameRaw
  let keywords := pyStrip keywordsRaw
  let location := pyStrip locationRaw
  if item_name = [] || keywords = [] || location = [] then
    ⟨.body (chars "All fields are required."), db, false⟩
  else
    match completion with
    | .fail e => ⟨.body (chars "Groq API Error: " ++ e), db, true⟩
    | .ok content =>
      let ai_text := pyStrip content
      let parsed := parseAiText ai_text
      let description := parsed.1
      let tags := parsed.2
      if existsTriple db item_name location description then
        ⟨.body (chars "Item already exists in database."), db, true⟩
      else
        ⟨.redirect (chars "/search"), db ++ [⟨item_name, description, tags, location⟩], true⟩

/-- Lines 145–163: the `/search` POST handler — the result rows rendered
into the page. -/
def search (db : List Item) (queryRaw : List Char) : List Item :=
  let query := pyStrip queryRaw
  if query = [] then []
  else db.filter (fun it => itemLikeMatch it query)

/-- Line 189: the fixed first fragment of a matching-items chat reply. -/
def chatFoundHeader : List Char := chars "🔍 I found matching items:<br><br>"

/-- Line 191: the fragment appended to the reply for one matching item. -/
def fmtItem (it : Item) : List Char :=
  chars "<b>" ++ it.item_name ++ chars "</b> - " ++ it.location ++ chars "<br>"

/-- Outcome of one POST to `/chat`: the reply text, whether the external
service was invoked, and the message forwarded to it (if any). -/
structure ChatResult where
  reply : List Char
  calledApi : Bool
  sentMessage : Option (List Char)
deriving DecidableEq

/-- Lines 167–212: the `/chat` POST handler. -/
def chat (db : List Item) (messageRaw : List Char) (completion : Completion) : ChatResult :=
  let user_message := pyStrip messageRaw
  if user_message = [] then ⟨[], false, none⟩
  else
    let items := db.filter (fun it => itemLikeMatch it user_message)
    if items ≠ [] then
      ⟨items.foldl (fun acc it => acc ++ fmtItem it) chatFoundHeader, false, none⟩
    else
      match completion with
      | .ok t => ⟨t, true, some user_message⟩
      | .fail e => ⟨chars "AI Error: " ++ e, true, some user_message⟩

/-- No two rows of the table share the exact
(item_name, location, description) triple. -/
def nodupTriples : List Item → Bool
  | [] => true
  | it :: rest =>
    !(existsTriple rest it.item_name it.location it.description) && nodupTriples rest

/-- A string contains no SQL `LIKE` wildcard character. -/
def noWild (q : List Char) : Bool := q.all (fun c => !(c = '%' || c = '_'))

/-- The stripped lines of a text: what the parser's loop iterates over once
the text itself has been stripped. -/
def stripLines (s : List Char) : List (List Char) := (pySplitC '\n' s).map pyStrip

/-- A row's `tags` column is a line with at least two commas, or the
fallback marker. -/
def tagsOk (it : Item) : Bool := decide (2 ≤ it.tags.count ',') || decide (it.tags = aiGenerated)

theorem pySplitC_ne_nil (sep : Char) (s : List Char) : pySplitC sep s ≠ [] := by
  cases s with
  | nil => simp [pySplitC]
  | cons c s =>
    by_cases h : c = sep
    · simp [pySplitC, h]
    · simp only [pySplitC, if_neg h]
      rcases hs : pySplitC sep s with _ | ⟨l, ls⟩ <;> simp

theorem length_pySplitC (sep : Char) (s : List Char) :
    (pySplitC sep s).length = s.count sep + 1 := by
  induction s with
  | nil => simp [pySplitC]
  | cons c s ih =>
    by_cases h : c = sep
    · subst h
      simp [pySplitC, ih, List.count_cons]
    · simp only [pySplitC, if_neg h]
      rcases hs : pySplitC sep s with _ | ⟨l, ls⟩
      · exact absurd hs (pySplitC_ne_nil sep s)
      · rw [hs] at ih
        simp only [List.length_cons] at ih ⊢
        have hne : (sep == c) = false := by
          simp [Ne.symm h]
        simp [List.count_cons, hne, ih, h]

theorem pySplitC_headI_append (sep : Char) (s : List Char) :
    ∃ u, (pySplitC sep s).headI ++ u = s := by
  induction s with
  | nil => exact ⟨[], rfl⟩
  | cons c s ih =>
    by_cases h : c = sep
    · exact ⟨c :: s, by simp [pySplitC, h]⟩
    · simp only [pySplitC, if_neg h]
      rcases hs : pySplitC sep s with _ | ⟨l, ls⟩
      · exact absurd hs (pySplitC_ne_nil sep s)
      · obtain ⟨u, hu⟩ := ih
        rw [hs] at hu
        simp only [List.headI] at hu ⊢
        exact ⟨u, by simp [hu]⟩

theorem pySplitC_append_of_not_mem (sep : Char) (a b : List Char) (ha : sep ∉ a) :
    pySplitC sep (a ++ b) = (a ++ (pySplitC sep b).headI) :: (pySplitC sep b).tail := by
  induction a with
  | nil =>
    rcases hb : pySplitC sep b with _ | ⟨l, ls⟩
    · exact absurd hb (pySplitC_ne_nil sep b)
    · simp [hb]
  | cons x a ih =>
    have hx : x ≠ sep := fun h => ha (h ▸ List.mem_cons_self x a)
    have ha' : sep ∉ a := fun h => ha (List.mem_cons_of_mem _ h)
    simp only [List.cons_append, pySplitC, if_neg hx, List.append_eq, ih ha']

theorem getLastD_irrel {α : Type} (l : List α) (h : l ≠ []) (d₁ d₂ : α) :
    l.getLastD d₁ = l.getLastD d₂ := by
  cases l with
  | nil => exact absurd rfl h
  | cons x xs => rw [List.getLastD_cons, List.getLastD_cons]

theorem pySplitC_append_sep (sep : Char) (l : List Char) :
    pySplitC sep (l ++ [sep]) = pySplitC sep l ++ [[]] := by
  induction l with
  | nil => simp [pySplitC]
  | cons c l ih =>
    by_cases h : c = sep
    · simp only [List.cons_append, pySplitC, if_pos h, List.append_eq, ih]
    · rcases hs : pySplitC sep l with _ | ⟨m, ms⟩
      · exact absurd hs (pySplitC_ne_nil sep l)
      · simp only [List.cons_append, pySplitC, if_neg h, List.append_eq, ih, hs]

theorem pySplitC_append_ne_sep (sep c : Char) (l : List Char) (hc : c ≠ sep) :
    pySplitC sep (l ++ [c]) =
      (pySplitC sep l).dropLast ++ [(pySplitC sep l).getLastD [] ++ [c]] := by
  induction l with
  | nil => simp [pySplitC, if_neg hc]
  | cons x l ih =>
    rcases hs : pySplitC sep l with _ | ⟨m, ms⟩
    · exact absurd hs (pySplitC_ne_nil sep l)
    · by_cases h : x = sep
      · simp only [List.cons_append, pySplitC, if_pos h, List.append_eq, ih, hs,
          List.dropLast_cons₂, List.getLastD_cons]
      · cases ms with
        | nil =>
          simp only [List.cons_append, pySplitC, if_neg h, List.append_eq, ih, hs]
          simp [List.getLastD_cons]
        | cons m₂ ms₂ =>
          simp only [List.cons_append, pySplitC, if_neg h, List.append_eq, ih, hs,
            List.dropLast_cons₂, List.getLastD_cons]

theorem dropWhile_length_le (p : Char → Bool) (l : List Char) :
    (l.dropWhile p).length ≤ l.length := by
  induction l with
  | nil => exact Nat.le_refl 0
  | cons x l ih =>
    rw [List.dropWhile_cons]
    by_cases h : p x = true
    · rw [if_pos h]
      exact Nat.le_succ_of_le ih
    · rw [if_neg h]

theorem dropWhile_idem (p : Char → Bool) (l : List Char) :
    (l.dropWhile p).dropWhile p = l.dropWhile p := by
  induction l with
  | nil => rfl
  | cons x l ih =>
    by_cases h : p x = true
    · simp [List.dropWhile_cons, h, ih]
    · simp [List.dropWhile_cons, h]

theorem head_of_dropWhile_not (p : Char → Bool) (l : List Char) (x : Char) (r : List Char)
    (h : l.dropWhile p = x :: r) : p x = false := by
  rcases hx : p x
  · rfl
  · exfalso
    have h2 : (l.dropWhile p).dropWhile p = l.dropWhile p := dropWhile_idem p l
    rw [h, List.dropWhile_cons, if_pos hx] at h2
    have h3 := congrArg List.length h2
    have h4 := dropWhile_length_le p r
    simp only [List.length_cons] at h3
    omega

theorem dropWhile_count (p : Char → Bool) (c : Char) (hc : p c = false) (l : List Char) :
    (l.dropWhile p).count c = l.count c := by
  induction l with
  | nil => rfl
  | cons x l ih =>
    rw [List.dropWhile_cons]
    by_cases h : p x = true
    · rw [if_pos h, ih, List.count_cons]
      have hxc : ¬x = c := by
        intro he
        rw [he] at h
        rw [h] at hc
        cases hc
      simp [hxc]
    · rw [if_neg h]

theorem count_pyStrip (c : Char) (hc : isPyWs c = false) (s : List Char) :
    (pyStrip s).count c = s.count c := by
  unfold pyStrip
  rw [List.count_reverse, dropWhile_count _ _ hc, List.count_reverse, dropWhile_count _ _ hc]

theorem pyStrip_cons_ws (c : Char) (hc : isPyWs c = true) (l : List Char) :
    pyStrip (c :: l) = pyStrip l := by
  simp [pyStrip, List.dropWhile_cons, hc]

theorem pyStrip_append_ws (c : Char) (hc : isPyWs c = true) (l : List Char) :
    pyStrip (l ++ [c]) = pyStrip l := by
  induction l with
  | nil => simp [pyStrip, List.dropWhile_cons, hc]
  | cons x l ih =>
    by_cases h : isPyWs x = true
    · rw [List.cons_append, pyStrip_cons_ws x h, pyStrip_cons_ws x h]
      exact ih
    · have h1 : ∀ R : List Char, (x :: R).dropWhile isPyWs = x :: R := fun R => by
        simp [List.dropWhile_cons, h]
      show ((((x :: l) ++ [c]).dropWhile isPyWs).reverse.dropWhile isPyWs).reverse =
        (((x :: l).dropWhile isPyWs).reverse.dropWhile isPyWs).reverse
      rw [List.cons_append, h1, h1]
      have h2 : (x :: (l ++ [c])).reverse = c :: (x :: l).reverse := by simp
      rw [h2, List.dropWhile_cons, if_pos hc]

theorem dropWhile_pyStrip (s : List Char) : (pyStrip s).dropWhile isPyWs = pyStrip s := by
  rcases hv : pyStrip s with _ | ⟨x, xs⟩
  · rfl
  · have hsplit : s.dropWhile isPyWs =
        pyStrip s ++ ((s.dropWhile isPyWs).reverse.takeWhile isPyWs).reverse := by
      have hTV := congrArg List.reverse
        (List.takeWhile_append_dropWhile isPyWs (s.dropWhile isPyWs).reverse)
      rw [List.reverse_append, List.reverse_reverse] at hTV
      exact hTV.symm
    rw [hv] at hsplit
    have hx : isPyWs x = false :=
      head_of_dropWhile_not isPyWs s x _ (by rw [hsplit]; rfl)
    rw [List.dropWhile_cons, if_neg (by simp [hx])]

theorem pyStrip_idem (s : List Char) : pyStrip (pyStrip s) = pyStrip s := by
  have g1 : (pyStrip s).dropWhile isPyWs = pyStrip s := dropWhile_pyStrip s
  show (((pyStrip s).dropWhile isPyWs).reverse.dropWhile isPyWs).reverse = pyStrip s
  rw [g1]
  have g2 : (pyStrip s).reverse = ((s.dropWhile isPyWs).reverse).dropWhile isPyWs := by
    simp [pyStrip]
  rw [g2, dropWhile_idem, ← g2]
  simp

theorem isTagLine_iff_count (l : List Char) : isTagLine l = true ↔ 2 ≤ l.count ',' := by
  unfold isTagLine
  rw [Bool.and_eq_true, decide_eq_true_eq, length_pySplitC]
  constructor
  · rintro ⟨h1, h2⟩
    omega
  · intro h
    refine ⟨?_, by omega⟩
    have hm : ',' ∈ l := by
      rw [← List.count_pos_iff]
      omega
    simpa using hm

theorem isTagLine_eq (l : List Char) : isTagLine l = decide (2 ≤ l.count ',') := by
  rcases hb : isTagLine l
  · by_cases h : 2 ≤ l.count ','
    · rw [(isTagLine_iff_count l).2 h] at hb
      cases hb
    · simp [h]
  · simp [(isTagLine_iff_count l).1 hb]

theorem isTagLine_pyStrip (l : List Char) : isTagLine (pyStrip l) = isTagLine l := by
  rw [isTagLine_eq, isTagLine_eq, count_pyStrip ',' (by decide) l]

theorem isPrefixOf_iff (p l : List Char) : p.isPrefixOf l = true ↔ ∃ t, p ++ t = l := by
  induction p generalizing l with
  | nil => simp [List.isPrefixOf]
  | cons a p ih =>
    cases l with
    | nil => simp [List.isPrefixOf]
    | cons b l =>
      rw [show (a :: p).isPrefixOf (b :: l) = ((a == b) && p.isPrefixOf l) from rfl,
        Bool.and_eq_true, beq_iff_eq, ih]
      constructor
      · rintro ⟨ha, t, ht⟩
        exact ⟨t, by rw [List.cons_append, ha, ht]⟩
      · rintro ⟨t, ht⟩
        rw [List.cons_append] at ht
        injection ht with h1 h2
        exact ⟨h1, t, h2⟩

theorem pyReplaceF_fuel (pat : List Char) (f₁ : Nat) :
    ∀ (f₂ : Nat) (s : List Char), s.length ≤ f₁ → s.length ≤ f₂ →
      pyReplaceF pat f₁ s = pyReplaceF pat f₂ s := by
  induction f₁ with
  | zero =>
    intro f₂ s h₁ h₂
    cases s with
    | nil => cases f₂ <;> rfl
    | cons c s => simp at h₁
  | succ f ih =>
    intro f₂ s h₁ h₂
    cases s with
    | nil => cases f₂ <;> rfl
    | cons c s =>
      cases f₂ with
      | zero => simp at h₂
      | succ f₂' =>
        simp only [pyReplaceF]
        simp only [List.length_cons] at h₁ h₂
        cases hp : pat.isPrefixOf (c :: s) with
        | false =>
          simp only [hp, Bool.false_eq_true, if_false]
          rw [ih f₂' s (by omega) (by omega)]
        | true =>
          simp only [hp, if_true]
          have hd : (s.drop (pat.length - 1)).length ≤ s.length := by
            rw [List.length_drop]
            omega
          exact ih f₂' _ (by omega) (by omega)

theorem pyReplace_nil (pat : List Char) : pyReplace [] pat = [] := rfl

theorem pyReplace_cons_pos (pat : List Char) (c : Char) (s : List Char)
    (h : pat.isPrefixOf (c :: s) = true) :
    pyReplace (c :: s) pat = pyReplace (s.drop (pat.length - 1)) pat := by
  show pyReplaceF pat (c :: s).length (c :: s) = _
  rw [List.length_cons]
  simp only [pyReplaceF, h, if_true]
  exact pyReplaceF_fuel pat s.length _ _
    (by rw [List.length_drop]; omega) (Nat.le_refl _)

theorem pyReplace_cons_neg (pat : List Char) (c : Char) (s : List Char)
    (h : pat.isPrefixOf (c :: s) = false) :
    pyReplace (c :: s) pat = c :: pyReplace s pat := by
  show pyReplaceF pat (c :: s).length (c :: s) = _
  rw [List.length_cons]
  simp only [pyReplaceF, h, Bool.false_eq_true, if_false]
  rfl

theorem pyReplace_append_pat (pat t : List Char) (hpat : pat ≠ []) :
    pyReplace (pat ++ t) pat = pyReplace t pat := by
  cases pat with
  | nil => exact absurd rfl hpat
  | cons a p =>
    have hpre : (a :: p).isPrefixOf ((a :: p) ++ t) = true := by
      rw [isPrefixOf_iff]
      exact ⟨t, rfl⟩
    rw [List.cons_append, pyReplace_cons_pos _ _ _ (by rw [← List.cons_append]; exact hpre)]
    congr 1
    rw [List.length_cons]
    simp [List.drop_left]

theorem count_pyReplace (pat : List Char) (c : Char) (hc : pat.count c = 0) (hpat : pat ≠ []) :
    ∀ s, (pyReplace s pat).count c = s.count c := by
  suffices h : ∀ n s, s.length ≤ n → (pyReplace s pat).count c = s.count c from
    fun s => h s.length s (Nat.le_refl _)
  intro n
  induction n with
  | zero =>
    intro s hs
    cases s with
    | nil => rfl
    | cons x s' => simp at hs
  | succ n ih =>
    intro s hs
    cases s with
    | nil => rfl
    | cons x s' =>
      simp only [List.length_cons] at hs
      cases hp : pat.isPrefixOf (x :: s') with
      | false =>
        rw [pyReplace_cons_neg _ _ _ hp, List.count_cons, List.count_cons,
          ih s' (by omega)]
      | true =>
        obtain ⟨t, ht⟩ := (isPrefixOf_iff _ _).1 hp
        obtain ⟨a, p, hpc⟩ : ∃ a p, pat = a :: p := by
          cases pat with
          | nil => exact absurd rfl hpat
          | cons a p => exact ⟨a, p, rfl⟩
        have hs' : s' = p ++ t := by
          rw [hpc, List.cons_append] at ht
          injection ht with h1 h2
          exact h2.symm
        have hdrop : s'.drop (pat.length - 1) = t := by
          rw [hs', hpc, List.length_cons]
          simp [List.drop_left]
        have hlt : t.length ≤ n := by
          rw [hs'] at hs
          simp only [List.length_append] at hs
          omega
        rw [pyReplace_cons_pos _ _ _ hp, hdrop, ih t hlt, ← ht, List.count_append, hc]
        omega

theorem pySplitC_pyReplace (pat : List Char) (hpat : pat ≠ []) (hnl : '\n' ∉ pat) :
    ∀ s, pySplitC '\n' (pyReplace s pat) =
      (pySplitC '\n' s).map (fun l => pyReplace l pat) := by
  suffices h : ∀ n s, s.length ≤ n → pySplitC '\n' (pyReplace s pat) =
      (pySplitC '\n' s).map (fun l => pyReplace l pat) from
    fun s => h s.length s (Nat.le_refl _)
  intro n
  induction n with
  | zero =>
    intro s hs
    cases s with
    | nil => rfl
    | cons x s' => simp at hs
  | succ n ih =>
    intro s hs
    cases s with
    | nil => rfl
    | cons x s' =>
      simp only [List.length_cons] at hs
      cases hp : pat.isPrefixOf (x :: s') with
      | true =>
        obtain ⟨t, ht⟩ := (isPrefixOf_iff _ _).1 hp
        obtain ⟨a, p, hpc⟩ : ∃ a p, pat = a :: p := by
          cases pat with
          | nil => exact absurd rfl hpat
          | cons a p => exact ⟨a, p, rfl⟩
        have hs' : s' = p ++ t := by
          rw [hpc, List.cons_append] at ht
          injection ht with h1 h2
          exact h2.symm
        have hdrop : s'.drop (pat.length - 1) = t := by
          rw [hs', hpc, List.length_cons]
          simp [List.drop_left]
        have hlt : t.length ≤ n := by
          rw [hs'] at hs
          simp only [List.length_append] at hs
          omega
        rw [pyReplace_cons_pos _ _ _ hp, hdrop, ih t hlt, ← ht,
          pySplitC_append_of_not_mem '\n' pat t hnl]
        rcases hsp : pySplitC '\n' t with _ | ⟨m, ms⟩
        · exact absurd hsp (pySplitC_ne_nil _ _)
        · simp only [hsp, List.map_cons, List.headI, List.tail_cons]
          congr 1
          exact (pyReplace_append_pat pat m hpat).symm
      | false =>
        rw [pyReplace_cons_neg _ _ _ hp]
        by_cases hx : x = '\n'
        · subst hx
          simp only [pySplitC, if_pos rfl, List.map_cons]
          rw [ih s' (by omega)]
          simp [pyReplace_nil]
        · simp only [pySplitC, if_neg hx]
          rw [ih s' (by omega)]
          rcases hsp : pySplitC '\n' s' with _ | ⟨m, ms⟩
          · exact absurd hsp (pySplitC_ne_nil _ _)
          · obtain ⟨u, hu⟩ : ∃ u, m ++ u = s' := by
              have hh := pySplitC_headI_append '\n' s'
              rw [hsp] at hh
              simpa using hh
            have hpm : pat.isPrefixOf (x :: m) = false := by
              cases hq : pat.isPrefixOf (x :: m) with
              | false => rfl
              | true =>
                exfalso
                obtain ⟨t, ht⟩ := (isPrefixOf_iff _ _).1 hq
                have : pat.isPrefixOf (x :: s') = true := by
                  rw [isPrefixOf_iff]
                  refine ⟨t ++ u, ?_⟩
                  rw [← List.append_assoc, ht, List.cons_append, hu]
                rw [this] at hp
                cases hp
            simp only [List.map_cons]
            rw [pyReplace_cons_neg _ _ _ hpm]

theorem pyReplace_first_occurrence (pat : List Char) (hpat : pat ≠ []) :
    ∀ u v : List Char,
      (∀ i, i < u.length → pat.isPrefixOf ((u ++ pat ++ v).drop i) = false) →
      pyReplace (u ++ pat ++ v) pat = u ++ pyReplace v pat := by
  intro u
  induction u with
  | nil =>
    intro v _
    simpa using pyReplace_append_pat pat v hpat
  | cons c u ih =>
    intro v h
    have h0 := h 0 (by simp)
    rw [List.drop_zero] at h0
    have hsh : (c :: u) ++ pat ++ v = c :: (u ++ pat ++ v) := by simp
    rw [hsh] at h0 ⊢
    rw [pyReplace_cons_neg _ _ _ h0, List.cons_append]
    congr 1
    refine ih v ?_
    intro i hi
    have hh := h (i + 1) (by simpa using Nat.succ_lt_succ hi)
    rw [hsh] at hh
    simpa using hh

theorem dropLast_append_getLastD {α : Type} : ∀ (x : α) (xs : List α) (d : α),
    (x :: xs).dropLast ++ [(x :: xs).getLastD d] = x :: xs
  | _, [], _ => rfl
  | x, y :: ys, d => by
    rw [List.dropLast_cons₂, List.getLastD_cons, List.cons_append,
      dropLast_append_getLastD y ys x]

theorem getLastD_mem {α : Type} : ∀ (l : List α) (d : α), l ≠ [] → l.getLastD d ∈ l
  | [], _, h => absurd rfl h
  | [x], d, _ => by
    rw [List.getLastD_cons]
    exact List.mem_singleton.2 rfl
  | x :: y :: xs, d, _ => by
    rw [List.getLastD_cons]
    exact List.mem_cons_of_mem x (getLastD_mem (y :: xs) x (by simp))

theorem getLastD_append_singleton {α : Type} (A : List α) (a d : α) :
    (A ++ [a]).getLastD d = a := by
  simp

theorem parseLines_desc (ls : List (List Char)) :
    ∀ ds t, (parseLines ls (ds, t)).1 =
      ds ++ ((ls.map pyStrip).filter (fun l => !isTagLine l)) := by
  induction ls with
  | nil =>
    intro ds t
    simp [parseLines]
  | cons l ls ih =>
    intro ds t
    cases h : isTagLine (pyStrip l) with
    | true =>
      simp only [parseLines, h, if_true, ih, List.map_cons, List.filter_cons, h,
        Bool.not_true, Bool.false_eq_true, if_false]
    | false =>
      simp only [parseLines, h, Bool.false_eq_true, if_false, ih, List.map_cons,
        List.filter_cons, Bool.not_false, if_true, List.append_assoc,
        List.singleton_append]

theorem parseLines_tag (ls : List (List Char)) :
    ∀ ds t, (parseLines ls (ds, t)).2 = ((ls.map pyStrip).filter isTagLine).getLastD t := by
  induction ls with
  | nil =>
    intro ds t
    simp [parseLines]
  | cons l ls ih =>
    intro ds t
    cases h : isTagLine (pyStrip l) with
    | true =>
      simp only [parseLines, h, if_true, ih, List.map_cons, List.filter_cons,
        List.getLastD_cons]
    | false =>
      simp only [parseLines, h, Bool.false_eq_true, if_false, ih, List.map_cons,
        List.filter_cons]

theorem parseAiText_desc (s : List Char) :
    (parseAiText s).1 =
      pyStrip (joinSpace ((stripLines (pyStrip (cleanText s))).filter
        (fun l => !isTagLine l))) := by
  show pyStrip (joinSpace (parseLines (pySplitC '\n' (pyStrip (cleanText s))) ([], [])).1) = _
  rw [parseLines_desc]
  rfl

theorem parseAiText_tag (s : List Char) :
    (parseAiText s).2 =
      (if ((stripLines (pyStrip (cleanText s))).filter isTagLine) = [] then aiGenerated
       else ((stripLines (pyStrip (cleanText s))).filter isTagLine).getLastD []) := by
  have hshape : (parseAiText s).2 =
      (if (parseLines (pySplitC '\n' (pyStrip (cleanText s))) ([], [])).2 ≠ [] then
        pyStrip (parseLines (pySplitC '\n' (pyStrip (cleanText s))) ([], [])).2
       else aiGenerated) := rfl
  rw [hshape, parseLines_tag]
  rcases hF : (stripLines (pyStrip (cleanText s))).filter isTagLine with _ | ⟨f, fs⟩
  · have hF' : ((pySplitC '\n' (pyStrip (cleanText s))).map pyStrip).filter isTagLine = [] := hF
    rw [hF']
    simp
  · have hF' : ((pySplitC '\n' (pyStrip (cleanText s))).map pyStrip).filter isTagLine =
      f :: fs := hF
    rw [hF']
    have hmem : (f :: fs).getLastD [] ∈ f :: fs := getLastD_mem _ _ (by simp)
    have hmemF : (f :: fs).getLastD [] ∈
        (stripLines (pyStrip (cleanText s))).filter isTagLine := by
      rw [hF]
      exact hmem
    have htag : isTagLine ((f :: fs).getLastD []) = true :=
      (List.mem_filter.1 hmemF).2
    have hne : (f :: fs).getLastD [] ≠ [] := by
      intro he
      rw [he] at htag
      have := (isTagLine_iff_count []).1 htag
      simp at this
    have hstripped : pyStrip ((f :: fs).getLastD []) = (f :: fs).getLastD [] := by
      have hmemS : (f :: fs).getLastD [] ∈ stripLines (pyStrip (cleanText s)) :=
        (List.mem_filter.1 hmemF).1
      obtain ⟨y, _, hy⟩ := List.mem_map.1 hmemS
      rw [← hy]
      exact pyStrip_idem y
    rw [if_pos hne, hstripped, if_neg (List.cons_ne_nil f fs)]

theorem stripLines_dropWhile (s : List Char) :
    ∃ k, stripLines s = List.replicate k [] ++ stripLines (s.dropWhile isPyWs) := by
  induction s with
  | nil => exact ⟨0, rfl⟩
  | cons c s ih =>
    cases hc : isPyWs c with
    | false =>
      refine ⟨0, ?_⟩
      rw [List.dropWhile_cons, if_neg (by simp [hc])]
      rfl
    | true =>
      by_cases hnl : c = '\n'
      · subst hnl
        obtain ⟨k, hk⟩ := ih
        refine ⟨k + 1, ?_⟩
        rw [List.dropWhile_cons, if_pos (by simp [hc])]
        show (pySplitC '\n' ('\n' :: s)).map pyStrip = _
        have hsplit : pySplitC '\n' ('\n' :: s) = [] :: pySplitC '\n' s := by
          simp [pySplitC]
        rw [hsplit, List.map_cons,
          show (pySplitC '\n' s).map pyStrip = stripLines s from rfl, hk,
          List.replicate_succ, List.cons_append]
        rfl
      · obtain ⟨k, hk⟩ := ih
        refine ⟨k, ?_⟩
        rw [List.dropWhile_cons, if_pos (by simp [hc]), ← hk]
        show (pySplitC '\n' (c :: s)).map pyStrip = (pySplitC '\n' s).map pyStrip
        simp only [pySplitC, if_neg hnl]
        rcases hs : pySplitC '\n' s with _ | ⟨m, ms⟩
        · exact absurd hs (pySplitC_ne_nil _ _)
        · simp only [List.map_cons]
          rw [pyStrip_cons_ws c hc]

theorem stripLines_rdropWhile (s : List Char) :
    ∃ k, stripLines s = stripLines ((s.reverse.dropWhile isPyWs).reverse) ++
      List.replicate k [] := by
  induction s using List.reverseRecOn with
  | nil => exact ⟨0, rfl⟩
  | append_singleton l c ih =>
    cases hc : isPyWs c with
    | false =>
      refine ⟨0, ?_⟩
      have hrev : (l ++ [c]).reverse.dropWhile isPyWs = (l ++ [c]).reverse := by
        rw [List.reverse_append, List.reverse_singleton, List.singleton_append,
          List.dropWhile_cons, if_neg (by simp [hc])]
      rw [hrev]
      simp
    | true =>
      have hrev : (l ++ [c]).reverse.dropWhile isPyWs = l.reverse.dropWhile isPyWs := by
        rw [List.reverse_append, List.reverse_singleton, List.singleton_append,
          List.dropWhile_cons, if_pos (by simp [hc])]
      rw [hrev]
      obtain ⟨k, hk⟩ := ih
      by_cases hnl : c = '\n'
      · subst hnl
        refine ⟨k + 1, ?_⟩
        have hSL : stripLines (l ++ ['\n']) = stripLines l ++ [[]] := by
          show (pySplitC '\n' (l ++ ['\n'])).map pyStrip = _
          rw [pySplitC_append_sep, List.map_append]
          rfl
        rw [hSL, hk, List.append_assoc]
        congr 1
        rw [show (List.replicate (k + 1) ([] : List Char)) =
          List.replicate k [] ++ [[]] from List.replicate_succ' k []]
      · refine ⟨k, ?_⟩
        have hSL : stripLines (l ++ [c]) = stripLines l := by
          rcases hs : pySplitC '\n' l with _ | ⟨m, ms⟩
          · exact absurd hs (pySplitC_ne_nil _ _)
          · show (pySplitC '\n' (l ++ [c])).map pyStrip = (pySplitC '\n' l).map pyStrip
            rw [pySplitC_append_ne_sep '\n' c l hnl, hs]
            conv_rhs => rw [← dropLast_append_getLastD m ms []]
            rw [List.map_append, List.map_append, List.map_cons, List.map_nil,
              List.map_cons, List.map_nil, pyStrip_append_ws c hc]
        rw [hSL, hk]

theorem stripLines_pyStrip_decomp (s : List Char) :
    ∃ k₁ k₂, stripLines s =
      List.replicate k₁ [] ++ stripLines (pyStrip s) ++ List.replicate k₂ [] := by
  obtain ⟨k₁, h₁⟩ := stripLines_dropWhile s
  obtain ⟨k₂, h₂⟩ := stripLines_rdropWhile (s.dropWhile isPyWs)
  refine ⟨k₁, k₂, ?_⟩
  rw [h₁, h₂]
  rw [show stripLines (((s.dropWhile isPyWs).reverse.dropWhile isPyWs).reverse) =
    stripLines (pyStrip s) from rfl, List.append_assoc]

theorem filter_tagLine_replicate (k : Nat) :
    (List.replicate k ([] : List Char)).filter isTagLine = [] := by
  induction k with
  | zero => rfl
  | succ k ih =>
    rw [List.replicate_succ, List.filter_cons]
    simp [ih, show isTagLine ([] : List Char) = false from rfl]

theorem filter_notTagLine_replicate (k : Nat) :
    (List.replicate k ([] : List Char)).filter (fun l => !isTagLine l) =
      List.replicate k [] := by
  induction k with
  | zero => rfl
  | succ k ih =>
    rw [List.replicate_succ, List.filter_cons]
    simp [ih, show isTagLine ([] : List Char) = false from rfl, List.replicate_succ]

theorem filter_tagLine_stripLines (s : List Char) :
    (stripLines (pyStrip s)).filter isTagLine = (stripLines s).filter isTagLine := by
  obtain ⟨k₁, k₂, h⟩ := stripLines_pyStrip_decomp s
  rw [h, List.filter_append, List.filter_append, filter_tagLine_replicate,
    filter_tagLine_replicate]
  simp

theorem joinSpace_replicate_left (k : Nat) (L : List (List Char)) :
    pyStrip (joinSpace (List.replicate k [] ++ L)) = pyStrip (joinSpace L) := by
  induction k with
  | zero => rfl
  | succ k ih =>
    rw [List.replicate_succ, List.cons_append]
    rcases hX : List.replicate k ([] : List Char) ++ L with _ | ⟨m, ms⟩
    · obtain ⟨hk, hL⟩ := List.append_eq_nil.1 hX
      rw [hL]
      rfl
    · show pyStrip ([] ++ ' ' :: joinSpace (m :: ms)) = _
      rw [List.nil_append, pyStrip_cons_ws ' ' (by decide)]
      rw [hX] at ih
      exact ih

theorem joinSpace_concat_nil (x : List Char) (L : List (List Char)) :
    joinSpace ((x :: L) ++ [[]]) = joinSpace (x :: L) ++ [' '] := by
  induction L generalizing x with
  | nil => rfl
  | cons y L ih =>
    show x ++ ' ' :: joinSpace ((y :: L) ++ [[]]) = (x ++ ' ' :: joinSpace (y :: L)) ++ [' ']
    rw [ih y]
    simp

theorem joinSpace_replicate_right (L : List (List Char)) (k : Nat) :
    pyStrip (joinSpace (L ++ List.replicate k [])) = pyStrip (joinSpace L) := by
  induction k generalizing L with
  | zero => simp
  | succ k ih =>
    have hsh : L ++ ([] :: List.replicate k ([] : List Char)) =
        (L ++ [[]]) ++ List.replicate k [] := by simp
    rw [List.replicate_succ, hsh, ih]
    cases L with
    | nil => rfl
    | cons x L' => rw [joinSpace_concat_nil, pyStrip_append_ws ' ' (by decide)]

theorem desc_join_stripLines (s : List Char) :
    pyStrip (joinSpace ((stripLines (pyStrip s)).filter (fun l => !isTagLine l))) =
      pyStrip (joinSpace ((stripLines s).filter (fun l => !isTagLine l))) := by
  obtain ⟨k₁, k₂, h⟩ := stripLines_pyStrip_decomp s
  rw [h, List.filter_append, List.filter_append, filter_notTagLine_replicate,
    filter_notTagLine_replicate, List.append_assoc, joinSpace_replicate_left,
    joinSpace_replicate_right]

theorem stripLines_cleanText (s : List Char) :
    stripLines (cleanText s) = (linesOf s).map cleanLine := by
  unfold stripLines cleanText linesOf cleanLine
  rw [pySplitC_pyReplace tagsHeader (by decide) (by decide),
    pySplitC_pyReplace descHeader (by decide) (by decide), List.map_map, List.map_map]
  rfl

theorem count_cleanLine (l : List Char) : (cleanLine l).count ',' = l.count ',' := by
  unfold cleanLine
  rw [count_pyStrip ',' (by decide), count_pyReplace tagsHeader ',' (by decide) (by decide),
    count_pyReplace descHeader ',' (by decide) (by decide)]

theorem isTagLine_cleanLine (l : List Char) :
    isTagLine (cleanLine l) = decide (2 ≤ l.count ',') := by
  rw [isTagLine_eq, count_cleanLine]

/-- Master characterisation of the Response Parser in terms of the lines of
its input: `description` is the stripped space-join of the cleaned
non-tag lines, and `tags` is the last cleaned line with at least two commas
(or the fallback marker when there is none). -/
theorem parseAiText_eq (s : List Char) :
    (parseAiText s).1 =
      pyStrip (joinSpace (((linesOf s).map cleanLine).filter (fun l => !isTagLine l))) ∧
    (parseAiText s).2 =
      (if (((linesOf s).map cleanLine).filter isTagLine) = [] then aiGenerated
       else (((linesOf s).map cleanLine).filter isTagLine).getLastD []) := by
  constructor
  · rw [parseAiText_desc, desc_join_stripLines, stripLines_cleanText]
  · rw [parseAiText_tag, filter_tagLine_stripLines, stripLines_cleanText]

/-- Claim C1 (amended): for every completion text with exactly one line
containing at least 2 commas (all other lines containing 0 or 1 commas),
the Response Parser sets `tags` to that line after removing the literal
substrings `"Description:"` and `"Tags:"` and stripping surrounding
whitespace, and sets `description` to the other lines, each cleaned the
same way, joined by single spaces, with the joined result stripped. -/
theorem parse_single_tag_line (s : List Char) (pre post : List (List Char)) (tl : List Char)
    (hsplit : linesOf s = pre ++ tl :: post)
    (htl : 2 ≤ tl.count ',')
    (hothers : ∀ l ∈ pre ++ post, l.count ',' < 2) :
    (parseAiText s).2 = cleanLine tl ∧
    (parseAiText s).1 = pyStrip (joinSpace ((pre ++ post).map cleanLine)) := by
  obtain ⟨hdesc, htags⟩ := parseAiText_eq s
  have hmap : (linesOf s).map cleanLine =
      pre.map cleanLine ++ cleanLine tl :: post.map cleanLine := by
    rw [hsplit, List.map_append, List.map_cons]
  have hnotag : ∀ side : List (List Char), (∀ l ∈ side, l ∈ pre ++ post) →
      ∀ l ∈ side.map cleanLine, ¬ isTagLine l = true := by
    intro side hside l hl
    obtain ⟨y, hy, hyl⟩ := List.mem_map.1 hl
    rw [← hyl, isTagLine_cleanLine]
    simp only [decide_eq_true_eq]
    have := hothers y (hside y hy)
    omega
  have hpre := hnotag pre (fun l hl => List.mem_append.2 (Or.inl hl))
  have hpost := hnotag post (fun l hl => List.mem_append.2 (Or.inr hl))
  have htlq : isTagLine (cleanLine tl) = true := by
    rw [isTagLine_cleanLine]
    simpa using htl
  have hfilterTag : ((linesOf s).map cleanLine).filter isTagLine = [cleanLine tl] := by
    rw [hmap, List.filter_append, List.filter_cons, htlq, if_pos rfl,
      List.filter_eq_nil_iff.2 hpre, List.filter_eq_nil_iff.2 hpost]
    simp
  have hfilterDesc : ((linesOf s).map cleanLine).filter (fun l => !isTagLine l) =
      (pre ++ post).map cleanLine := by
    rw [hmap, List.filter_append, List.filter_cons, List.map_append]
    simp only [htlq, Bool.not_true, Bool.false_eq_true, if_false]
    rw [List.filter_eq_self.2 (by intro a ha; simp [hpre a ha]),
      List.filter_eq_self.2 (by intro a ha; simp [hpost a ha])]
  refine ⟨?_, ?_⟩
  · rw [htags, hfilterTag]
    rfl
  · rw [hdesc, hfilterDesc]

/-- Claim C1 as stated fails on the code: for the completion text
`"a,b,c\n\nhello"` the single ≥2-comma line is `"a,b,c"` and the other
lines are `""` and `"hello"`, whose space-join is `" hello"`; the parser
instead produces the stripped `description` `"hello"`. -/
theorem parse_single_tag_line_counterexample :
    linesOf (chars "a,b,c\n\nhello") = [chars "a,b,c", [], chars "hello"] ∧
    2 ≤ (chars "a,b,c").count ',' ∧
    (([] : List Char).count ',' < 2 ∧ (chars "hello").count ',' < 2) ∧
    (parseAiText (chars "a,b,c\n\nhello")).2 = chars "a,b,c" ∧
    (parseAiText (chars "a,b,c\n\nhello")).1 = chars "hello" ∧
    joinSpace [[], chars "hello"] = chars " hello" ∧
    chars "hello" ≠ chars " hello" := by
  decide

theorem parse_single_tag_line_witness :
    (parseAiText (chars "A nice hat.\nred, hat, warm")).2 = chars "red, hat, warm" ∧
    (parseAiText (chars "A nice hat.\nred, hat, warm")).1 = chars "A nice hat." := by
  have h := parse_single_tag_line (chars "A nice hat.\nred, hat, warm")
    [chars "A nice hat."] [] (chars "red, hat, warm") (by decide) (by decide) (by decide)
  exact ⟨h.1.trans (by decide), h.2.trans (by decide)⟩

/-- Claim C2 (amended): for every completion text in which no line has at
least 2 commas, the parser sets `tags` to the literal `"AI generated"` and
`description` to the lines of the text, each with the header labels removed
and stripped, joined by single spaces, with the result stripped. -/
theorem parse_no_tag_line (s : List Char)
    (h : ∀ l ∈ linesOf s, l.count ',' < 2) :
    (parseAiText s).2 = aiGenerated ∧
    (parseAiText s).1 = pyStrip (joinSpace ((linesOf s).map cleanLine)) := by
  obtain ⟨hdesc, htags⟩ := parseAiText_eq s
  have hall : ∀ l ∈ (linesOf s).map cleanLine, ¬ isTagLine l = true := by
    intro l hl
    obtain ⟨y, hy, hyl⟩ := List.mem_map.1 hl
    rw [← hyl, isTagLine_cleanLine]
    simp only [decide_eq_true_eq]
    have := h y hy
    omega
  refine ⟨?_, ?_⟩
  · rw [htags, List.filter_eq_nil_iff.2 hall, if_pos rfl]
  · rw [hdesc, List.filter_eq_self.2 (by intro a ha; simp [hall a ha])]

/-- Claim C2 as stated fails on the code: for the completion text
`"Description:\nA hat"` no line has 2 commas, and the full text with lines
joined by single spaces is `"Description: A hat"`; the parser instead
produces `description` `"A hat"` because it deletes the header label. -/
theorem parse_no_tag_line_counterexample :
    (∀ l ∈ linesOf (chars "Description:\nA hat"), l.count ',' < 2) ∧
    (parseAiText (chars "Description:\nA hat")).2 = aiGenerated ∧
    (parseAiText (chars "Description:\nA hat")).1 = chars "A hat" ∧
    joinSpace (linesOf (chars "Description:\nA hat")) = chars "Description: A hat" ∧
    chars "A hat" ≠ chars "Description: A hat" := by
  decide

theorem parse_no_tag_line_witness :
    (parseAiText (chars "A small key.\nfound today")).2 = aiGenerated ∧
    (parseAiText (chars "A small key.\nfound today")).1 = chars "A small key. found today" := by
  have h := parse_no_tag_line (chars "A small key.\nfound today") (by decide)
  exact ⟨h.1, h.2.trans (by decide)⟩

/-- Claim C9: when two or more lines have at least 2 commas, only the last
such line becomes `tags` (after cleaning), and every qualifying line —
in particular each earlier one — is absent from `description`, which is
built from the lines with fewer than 2 commas only. -/
theorem parse_last_tag_line_wins (s : List Char) (pre mid post : List (List Char))
    (l₁ l₂ : List Char)
    (hsplit : linesOf s = pre ++ l₁ :: mid ++ l₂ :: post)
    (h₁ : 2 ≤ l₁.count ',') (h₂ : 2 ≤ l₂.count ',')
    (hpost : ∀ l ∈ post, l.count ',' < 2) :
    (parseAiText s).2 = cleanLine l₂ ∧
    (parseAiText s).1 = pyStrip (joinSpace
      (((linesOf s).filter (fun l => decide (l.count ',' < 2))).map cleanLine)) := by
  obtain ⟨hdesc, htags⟩ := parseAiText_eq s
  have hl₂q : isTagLine (cleanLine l₂) = true := by
    rw [isTagLine_cleanLine]
    simpa using h₂
  have hl₁q : isTagLine (cleanLine l₁) = true := by
    rw [isTagLine_cleanLine]
    simpa using h₁
  have hpostf : (post.map cleanLine).filter isTagLine = [] := by
    refine List.filter_eq_nil_iff.2 ?_
    intro l hl
    obtain ⟨y, hy, hyl⟩ := List.mem_map.1 hl
    rw [← hyl, isTagLine_cleanLine]
    simp only [decide_eq_true_eq]
    have := hpost y hy
    omega
  have hmap : (linesOf s).map cleanLine =
      pre.map cleanLine ++ cleanLine l₁ :: mid.map cleanLine ++
        cleanLine l₂ :: post.map cleanLine := by
    rw [hsplit]
    simp [List.map_append]
  have hF : ((linesOf s).map cleanLine).filter isTagLine =
      ((pre.map cleanLine).filter isTagLine ++
        cleanLine l₁ :: (mid.map cleanLine).filter isTagLine) ++ [cleanLine l₂] := by
    rw [hmap]
    simp only [List.filter_append, List.filter_cons, hl₁q, hl₂q, if_pos rfl, hpostf]
    simp
  refine ⟨?_, ?_⟩
  · rw [htags, hF, if_neg (by simp)]
    have hlast := getLastD_append_singleton
      (((pre.map cleanLine).filter isTagLine) ++
        cleanLine l₁ :: (mid.map cleanLine).filter isTagLine)
      (cleanLine l₂) ([] : List Char)
    simpa using hlast
  · rw [hdesc, List.filter_map]
    have hfeq : (linesOf s).filter ((fun l => !isTagLine l) ∘ cleanLine) =
        (linesOf s).filter (fun l => decide (l.count ',' < 2)) := by
      apply List.filter_congr
      intro x _
      show (!isTagLine (cleanLine x)) = decide (x.count ',' < 2)
      rw [isTagLine_cleanLine]
      rcases Nat.lt_or_ge (x.count ',') 2 with hlt | hge
      · simp [hlt, Nat.not_le.2 hlt]
      · simp [hge, Nat.not_lt.2 hge]
    rw [hfeq]

theorem parse_last_tag_line_wins_witness :
    (parseAiText (chars "a, b, c\nx\nd, e, f")).2 = chars "d, e, f" ∧
    (parseAiText (chars "a, b, c\nx\nd, e, f")).1 = chars "x" := by
  have h := parse_last_tag_line_wins (chars "a, b, c\nx\nd, e, f")
    [] [chars "x"] [] (chars "a, b, c") (chars "d, e, f")
    (by decide) (by decide) (by decide) (by decide)
  exact ⟨h.1.trans (by decide), h.2.trans (by decide)⟩

/-- Claim C3: if any of the three report fields is empty or whitespace-only
after trimming, the report handler returns the rejection message, leaves
the stored table unchanged, and does not invoke the completion service. -/
theorem report_rejects_missing_fields (db : List Item)
    (itemNameRaw keywordsRaw locationRaw : List Char) (completion : Completion)
    (h : pyStrip itemNameRaw = [] ∨ pyStrip keywordsRaw = [] ∨ pyStrip locationRaw = []) :
    report db itemNameRaw keywordsRaw locationRaw completion =
      ⟨.body (chars "All fields are required."), db, false⟩ := by
  unfold report
  rcases h with h | h | h <;> simp [h]

theorem report_rejects_missing_fields_witness :
    report [] (chars "  ") (chars "red") (chars "hall") (.ok (chars "x")) =
      ⟨.body (chars "All fields are required."), [], false⟩ :=
  report_rejects_missing_fields [] (chars "  ") (chars "red") (chars "hall")
    (.ok (chars "x")) (Or.inl (by decide))

theorem existsTriple_append (db₁ db₂ : List Item) (n l d : List Char) :
    existsTriple (db₁ ++ db₂) n l d = (existsTriple db₁ n l d || existsTriple db₂ n l d) :=
  List.any_append

theorem nodupTriples_cons (x : Item) (db : List Item) :
    nodupTriples (x :: db) =
      (!(existsTriple db x.item_name x.location x.description) && nodupTriples db) := rfl

theorem nodupTriples_append_singleton (db : List Item) (it : Item)
    (hdb : nodupTriples db = true)
    (hnew : existsTriple db it.item_name it.location it.description = false) :
    nodupTriples (db ++ [it]) = true := by
  induction db with
  | nil => simp [nodupTriples, existsTriple]
  | cons x db ih =>
    rw [nodupTriples_cons, Bool.and_eq_true] at hdb
    have hx : existsTriple db x.item_name x.location x.description = false := by
      have := hdb.1
      rcases hh : existsTriple db x.item_name x.location x.description
      · rfl
      · rw [hh] at this
        cases this
    have hxit : existsTriple (x :: db) it.item_name it.location it.description = false := hnew
    have hit_db : existsTriple db it.item_name it.location it.description = false := by
      have : existsTriple (x :: db) it.item_name it.location it.description =
          (decide (x.item_name = it.item_name ∧ x.location = it.location ∧
            x.description = it.description) || existsTriple db it.item_name it.location
            it.description) := rfl
      rw [this] at hxit
      exact (Bool.or_eq_false_iff.1 hxit).2
    have hxmis : decide (x.item_name = it.item_name ∧ x.location = it.location ∧
        x.description = it.description) = false := by
      have : existsTriple (x :: db) it.item_name it.location it.description =
          (decide (x.item_name = it.item_name ∧ x.location = it.location ∧
            x.description = it.description) || existsTriple db it.item_name it.location
            it.description) := rfl
      rw [this] at hxit
      exact (Bool.or_eq_false_iff.1 hxit).1
    rw [List.cons_append, nodupTriples_cons, Bool.and_eq_true]
    refine ⟨?_, ih hdb.2 hit_db⟩
    rw [existsTriple_append]
    have hsingle : existsTriple [it] x.item_name x.location x.description = false := by
      show (decide (it.item_name = x.item_name ∧ it.location = x.location ∧
        it.description = x.description) || false) = false
      simp only [Bool.or_false]
      rw [decide_eq_false_iff_not] at hxmis ⊢
      intro ⟨h1, h2, h3⟩
      exact hxmis ⟨h1.symm, h2.symm, h3.symm⟩
    rw [hx, hsingle]
    rfl

theorem report_db_cases (db : List Item) (a b c : List Char) (completion : Completion) :
    (report db a b c completion).db = db ∨
    ∃ t, completion = .ok t ∧
      existsTriple db (pyStrip a) (pyStrip c) (parseAiText (pyStrip t)).1 = false ∧
      (report db a b c completion).db =
        db ++ [⟨pyStrip a, (parseAiText (pyStrip t)).1, (parseAiText (pyStrip t)).2,
          pyStrip c⟩] := by
  unfold report
  by_cases h1 : pyStrip a = []
  · left
    simp [h1]
  by_cases h2 : pyStrip b = []
  · left
    simp [h1, h2]
  by_cases h3 : pyStrip c = []
  · left
    simp [h1, h2, h3]
  cases completion with
  | fail e =>
    left
    simp [h1, h2, h3]
  | ok t =>
    rcases hdup : existsTriple db (pyStrip a) (pyStrip c) (parseAiText (pyStrip t)).1 with _ | _
    · right
      refine ⟨t, rfl, hdup, ?_⟩
      simp [h1, h2, h3, hdup]
    · left
      simp [h1, h2, h3, hdup]

set_option maxHeartbeats 1600000 in
/-- Claim C4: assuming no two stored rows share the exact
(item_name, location, description) triple, a report whose parsed triple
already exists is rejected with the "already exists" body and no insert,
and after any report the no-duplicate-triple invariant still holds. -/
theorem report_duplicate_rejected (db : List Item)
    (a b c t : List Char) (completion : Completion)
    (hinv : nodupTriples db = true) :
    nodupTriples (report db a b c completion).db = true ∧
    (pyStrip a ≠ [] → pyStrip b ≠ [] → pyStrip c ≠ [] →
      existsTriple db (pyStrip a) (pyStrip c) (parseAiText (pyStrip t)).1 = true →
      (report db a b c (.ok t)).reply = .body (chars "Item already exists in database.") ∧
      (report db a b c (.ok t)).db = db) := by
  constructor
  · rcases report_db_cases db a b c completion with h | ⟨t', _, hdup, h⟩
    · rw [h]
      exact hinv
    · rw [h]
      exact nodupTriples_append_singleton db
        ⟨pyStrip a, (parseAiText (pyStrip t')).1, (parseAiText (pyStrip t')).2, pyStrip c⟩
        hinv hdup
  · intro ha hb hc hdup
    have hrep : report db a b c (.ok t) =
        ⟨.body (chars "Item already exists in database."), db, true⟩ := by
      unfold report
      simp [ha, hb, hc, hdup]
    rw [hrep]
    exact ⟨rfl, rfl⟩

theorem report_duplicate_rejected_witness :
    (report [⟨chars "Hat", chars "A red hat.", chars "red, hat, warm", chars "Hall"⟩]
        (chars "Hat") (chars "red") (chars "Hall")
        (.ok (chars "A red hat.\nred, hat, warm"))).reply =
      .body (chars "Item already exists in database.") ∧
    (report [⟨chars "Hat", chars "A red hat.", chars "red, hat, warm", chars "Hall"⟩]
        (chars "Hat") (chars "red") (chars "Hall")
        (.ok (chars "A red hat.\nred, hat, warm"))).db =
      [⟨chars "Hat", chars "A red hat.", chars "red, hat, warm", chars "Hall"⟩] := by
  have h := report_duplicate_rejected
    [⟨chars "Hat", chars "A red hat.", chars "red, hat, warm", chars "Hall"⟩]
    (chars "Hat") (chars "red") (chars "Hall") (chars "A red hat.\nred, hat, warm")
    (.ok (chars "A red hat.\nred, hat, warm")) (by decide)
  have h2 := h.2 (by decide) (by decide) (by decide) (by decide)
  exact h2

/-- Claim C5: the end-to-end example — reporting the blue backpack with the
given completion text stores exactly the expected description and tags and
redirects to the search page. -/
theorem report_blue_backpack_example :
    report [] (chars "Blue Backpack") (chars "left, near library") (chars "Main Hall")
      (.ok (chars "Description:\nA blue backpack found near the library.\n\nTags:\nbackpack, blue, library, lost, bag")) =
    ⟨.redirect (chars "/search"),
      [⟨chars "Blue Backpack", chars "A blue backpack found near the library.",
        chars "backpack, blue, library, lost, bag", chars "Main Hall"⟩], true⟩ := by
  decide

theorem parse_tags_shape (s : List Char) :
    2 ≤ (parseAiText s).2.count ',' ∨ (parseAiText s).2 = aiGenerated := by
  obtain ⟨_, htags⟩ := parseAiText_eq s
  rcases hF : ((linesOf s).map cleanLine).filter isTagLine with _ | ⟨f, fs⟩
  · right
    rw [htags, hF, if_pos rfl]
  · left
    rw [htags, hF, if_neg (by simp)]
    have hmem : (f :: fs).getLastD [] ∈ f :: fs := getLastD_mem _ _ (by simp)
    have hmemF : (f :: fs).getLastD [] ∈ ((linesOf s).map cleanLine).filter isTagLine := by
      rw [hF]
      exact hmem
    exact (isTagLine_iff_count _).1 (List.mem_filter.1 hmemF).2

/-- Claim C8 (amended): every row stored by the report handler has a `tags`
value that is either a line containing at least two commas (at least three
comma-separated parts, not necessarily five words) or the literal fallback
`"AI generated"`. -/
theorem report_tags_invariant (db : List Item) (a b c : List Char) (completion : Completion)
    (hdb : ∀ it ∈ db, tagsOk it = true) :
    ∀ it ∈ (report db a b c completion).db, tagsOk it = true := by
  rcases report_db_cases db a b c completion with h | ⟨t, _, _, h⟩
  · rw [h]
    exact hdb
  · rw [h]
    intro it hit
    rcases List.mem_append.1 hit with h1 | h1
    · exact hdb it h1
    · rw [List.mem_singleton.1 h1]
      unfold tagsOk
      rcases parse_tags_shape (pyStrip t) with hcnt | hai
      · simp [hcnt]
      · simp [hai]

theorem report_tags_invariant_witness :
    tagsOk ⟨chars "Hat", [], chars "a, b, c", chars "Hall"⟩ = true :=
  report_tags_invariant [] (chars "Hat") (chars "red") (chars "Hall")
    (.ok (chars "a, b, c")) (by simp) ⟨chars "Hat", [], chars "a, b, c", chars "Hall"⟩
    (by decide)

/-- Claim C8 as stated fails: a completion whose only line is `"a, b, c"`
is stored with `tags = "a, b, c"` — three comma-separated words, not five,
and not the fallback marker. -/
theorem report_tags_counterexample :
    (report [] (chars "Hat") (chars "red") (chars "Hall") (.ok (chars "a, b, c"))).db =
      [⟨chars "Hat", [], chars "a, b, c", chars "Hall"⟩] ∧
    (pySplitC ',' (chars "a, b, c")).length = 3 ∧
    chars "a, b, c" ≠ aiGenerated := by
  decide

/-- Claim C10: the parser's header-removal step deletes an occurrence of
`"Description:"` or `"Tags:"` wherever it sits in the text — `u` is an
arbitrary prefix (prose, mid-line text, anything without an earlier
occurrence), not just a line start — and continues on the remainder, so
every occurrence in the completion text is removed. -/
theorem clean_removes_headers_anywhere (u v : List Char) :
    ((∀ i, i < u.length → descHeader.isPrefixOf ((u ++ descHeader ++ v).drop i) = false) →
      pyReplace (u ++ descHeader ++ v) descHeader = u ++ pyReplace v descHeader) ∧
    ((∀ i, i < u.length → tagsHeader.isPrefixOf ((u ++ tagsHeader ++ v).drop i) = false) →
      pyReplace (u ++ tagsHeader ++ v) tagsHeader = u ++ pyReplace v tagsHeader) :=
  ⟨pyReplace_first_occurrence descHeader (by decide) u v,
   pyReplace_first_occurrence tagsHeader (by decide) u v⟩

theorem clean_removes_headers_anywhere_witness :
    pyReplace ((chars "mid-prose ") ++ descHeader ++ (chars " tail")) descHeader =
      (chars "mid-prose ") ++ pyReplace (chars " tail") descHeader ∧
    pyReplace ((chars "mid-prose ") ++ tagsHeader ++ (chars " tail")) tagsHeader =
      (chars "mid-prose ") ++ pyReplace (chars " tail") tagsHeader :=
  ⟨(clean_removes_headers_anywhere (chars "mid-prose ") (chars " tail")).1 (by decide),
   (clean_removes_headers_anywhere (chars "mid-prose ") (chars " tail")).2 (by decide)⟩

theorem bool_eq_of_iff {a b : Bool} (h : a = true ↔ b = true) : a = b := by
  rcases a <;> rcases b <;> simp_all

theorem likeMatch_percent (ps s : List Char) :
    likeMatch ('%' :: ps) s = true ↔ ∃ s₁ s₂, s = s₁ ++ s₂ ∧ likeMatch ps s₂ = true := by
  rw [show likeMatch ('%' :: ps) s =
    (if '%' = '%' then (s.tails).any (fun t => likeMatch ps t)
     else match s with
       | [] => false
       | c :: s' => ('%' = '_' || (toLowerAscii '%' == toLowerAscii c)) && likeMatch ps s')
    from rfl, if_pos rfl, List.any_eq_true]
  constructor
  · rintro ⟨t, ht, hm⟩
    obtain ⟨s₁, hs₁⟩ := (List.mem_tails t s).1 ht
    exact ⟨s₁, t, hs₁.symm, hm⟩
  · rintro ⟨s₁, s₂, rfl, hm⟩
    exact ⟨s₂, (List.mem_tails _ _).2 ⟨s₁, rfl⟩, hm⟩

theorem likeMatch_self_append : ∀ (q s' : List Char), likeMatch (q ++ ['%']) (q ++ s') = true := by
  intro q
  induction q with
  | nil =>
    intro s'
    rw [List.nil_append, List.nil_append]
    exact (likeMatch_percent [] s').2 ⟨s', [], by simp, rfl⟩
  | cons c q ih =>
    intro s'
    by_cases hc : c = '%'
    · subst hc
      rw [List.cons_append, List.cons_append]
      exact (likeMatch_percent _ _).2 ⟨['%'], q ++ s', rfl, ih s'⟩
    · rw [List.cons_append, List.cons_append]
      simp only [likeMatch, if_neg hc]
      rw [Bool.and_eq_true]
      exact ⟨by simp, ih s'⟩

theorem likeMatch_noWild_append (q : List Char) (hq : ∀ c ∈ q, c ≠ '%' ∧ c ≠ '_') :
    ∀ (p' s : List Char), likeMatch (q ++ p') s = true ↔
      ∃ s₁ s₂, s = s₁ ++ s₂ ∧ lowerList s₁ = lowerList q ∧ likeMatch p' s₂ = true := by
  induction q with
  | nil =>
    intro p' s
    constructor
    · intro h
      exact ⟨[], s, rfl, rfl, by simpa using h⟩
    · rintro ⟨s₁, s₂, rfl, h₁, h₂⟩
      have hs₁ : s₁ = [] := by
        have := congrArg List.length h₁
        simp only [lowerList, List.length_map, List.length_nil] at this
        exact List.length_eq_zero.1 this
      subst hs₁
      simpa using h₂
  | cons c q ih =>
    intro p' s
    have hc := hq c (List.mem_cons_self c q)
    have hq' : ∀ x ∈ q, x ≠ '%' ∧ x ≠ '_' := fun x hx => hq x (List.mem_cons_of_mem c hx)
    cases s with
    | nil =>
      rw [List.cons_append]
      simp only [likeMatch, if_neg hc.1]
      constructor
      · intro h
        cases h
      · rintro ⟨s₁, s₂, hnil, h₁, h₂⟩
        obtain ⟨hs₁, hs₂⟩ := List.append_eq_nil.1 hnil.symm
        rw [hs₁] at h₁
        have := congrArg List.length h₁
        simp [lowerList] at this
    | cons a s' =>
      rw [List.cons_append]
      simp only [likeMatch, if_neg hc.1]
      rw [Bool.and_eq_true]
      constructor
      · rintro ⟨hhead, htail⟩
        have hlow : toLowerAscii c = toLowerAscii a := by
          rw [Bool.or_eq_true] at hhead
          rcases hhead with h | h
          · exact absurd (of_decide_eq_true h) hc.2
          · exact eq_of_beq h
        obtain ⟨s₁, s₂, rfl, h₁, h₂⟩ := (ih hq' p' s').1 htail
        refine ⟨a :: s₁, s₂, rfl, ?_, h₂⟩
        simp only [lowerList, List.map_cons] at h₁ ⊢
        rw [h₁, hlow]
      · rintro ⟨s₁, s₂, heq, h₁, h₂⟩
        cases s₁ with
        | nil =>
          have := congrArg List.length h₁
          simp [lowerList] at this
        | cons b s₁' =>
          rw [List.cons_append] at heq
          injection heq with hab hs'
          simp only [lowerList, List.map_cons] at h₁
          injection h₁ with hlow h₁'
          refine ⟨?_, (ih hq' p' s').2 ⟨s₁', s₂, hs', h₁', h₂⟩⟩
          rw [Bool.or_eq_true]
          right
          rw [beq_iff_eq, hab]
          exact hlow.symm

theorem likeMatch_pattern_iff (q s : List Char) (hq : ∀ c ∈ q, c ≠ '%' ∧ c ≠ '_') :
    likeMatch (likePattern q) s = true ↔
      ∃ u v w, s = u ++ v ++ w ∧ lowerList v = lowerList q := by
  unfold likePattern
  rw [likeMatch_percent]
  constructor
  · rintro ⟨s₁, s₂, rfl, hm⟩
    obtain ⟨v, w, rfl, hv, _⟩ := (likeMatch_noWild_append q hq ['%'] s₂).1 hm
    exact ⟨s₁, v, w, by simp, hv⟩
  · rintro ⟨u, v, w, rfl, hv⟩
    refine ⟨u, v ++ w, by simp, ?_⟩
    refine (likeMatch_noWild_append q hq ['%'] (v ++ w)).2 ⟨v, w, rfl, hv, ?_⟩
    exact (likeMatch_percent [] w).2 ⟨w, [], by simp, rfl⟩

theorem containsSeq_iff (q s : List Char) :
    containsSeq q s = true ↔ ∃ u w, s = u ++ q ++ w := by
  unfold containsSeq
  rw [List.any_eq_true]
  constructor
  · rintro ⟨t, ht, hp⟩
    obtain ⟨u, hu⟩ := (List.mem_tails t s).1 ht
    obtain ⟨w, hw⟩ := (isPrefixOf_iff q t).1 hp
    refine ⟨u, w, ?_⟩
    rw [← hu, ← hw]
    simp
  · rintro ⟨u, w, rfl⟩
    exact ⟨q ++ w, (List.mem_tails _ _).2 ⟨u, by simp⟩, (isPrefixOf_iff _ _).2 ⟨w, rfl⟩⟩

theorem map_eq_append₃ (f : Char → Char) (s A B C : List Char)
    (h : s.map f = A ++ B ++ C) :
    ∃ a b c, s = a ++ b ++ c ∧ a.map f = A ∧ b.map f = B ∧ c.map f = C := by
  obtain ⟨ab, c, rfl, hab, hc⟩ := List.map_eq_append_iff.1 h
  obtain ⟨a, b, rfl, ha, hb⟩ := List.map_eq_append_iff.1 hab
  exact ⟨a, b, c, rfl, ha, hb, hc⟩

theorem likeMatch_eq_ciContains (q s : List Char) (hq : ∀ c ∈ q, c ≠ '%' ∧ c ≠ '_') :
    likeMatch (likePattern q) s = containsSeq (lowerList q) (lowerList s) := by
  apply bool_eq_of_iff
  rw [likeMatch_pattern_iff q s hq, containsSeq_iff]
  constructor
  · rintro ⟨u, v, w, rfl, hv⟩
    refine ⟨lowerList u, lowerList w, ?_⟩
    simp only [lowerList, List.map_append] at hv ⊢
    rw [hv]
  · rintro ⟨u', w', hsplit⟩
    obtain ⟨a, b, c, rfl, _, hb, _⟩ := map_eq_append₃ toLowerAscii _ u' (lowerList q) w' hsplit
    exact ⟨a, b, c, rfl, hb⟩

theorem likeMatch_of_containsSeq (q s : List Char) (h : containsSeq q s = true) :
    likeMatch (likePattern q) s = true := by
  obtain ⟨u, w, rfl⟩ := (containsSeq_iff q s).1 h
  unfold likePattern
  refine (likeMatch_percent _ _).2 ⟨u, q ++ w, by simp, ?_⟩
  exact likeMatch_self_append q w

theorem noWild_chars (q : List Char) (hw : noWild q = true) :
    ∀ c ∈ q, c ≠ '%' ∧ c ≠ '_' := by
  intro c hc
  have := List.all_eq_true.1 hw c hc
  constructor
  · intro he
    rw [he] at this
    simp at this
  · intro he
    rw [he] at this
    simp at this

theorem itemLikeMatch_eq_ci (it : Item) (q : List Char) (hq : ∀ c ∈ q, c ≠ '%' ∧ c ≠ '_') :
    itemLikeMatch it q = ciAnyColumn q it := by
  unfold itemLikeMatch ciAnyColumn
  rw [likeMatch_eq_ciContains _ _ hq, likeMatch_eq_ciContains _ _ hq,
    likeMatch_eq_ciContains _ _ hq, likeMatch_eq_ciContains _ _ hq]

/-- Claim C6 (amended): for every search request whose trimmed query
contains no SQL LIKE wildcard (`%` or `_`): if the trimmed query is empty
the Search Handler returns an empty result set; otherwise it returns
exactly the rows in which the query is an ASCII-case-insensitive substring
of at least one of the four text columns, with no ranking, paging, or
limit. -/
theorem search_ci_substring (db : List Item) (queryRaw : List Char)
    (hw : noWild (pyStrip queryRaw) = true) :
    (pyStrip queryRaw = [] → search db queryRaw = []) ∧
    (pyStrip queryRaw ≠ [] →
      search db queryRaw = db.filter (fun it => ciAnyColumn (pyStrip queryRaw) it)) := by
  constructor
  · intro h
    unfold search
    simp [h]
  · intro h
    unfold search
    rw [if_neg h]
    apply List.filter_congr
    intro it _
    exact itemLikeMatch_eq_ci it (pyStrip queryRaw) (noWild_chars _ hw)

/-- Claim C6 as stated fails on the code: the query is interpolated into a
`LIKE` pattern, so `%` acts as a wildcard — query `"a%b"` returns the row
`"aXb"` although it is a substring of none of its four columns. -/
theorem search_ci_substring_counterexample :
    search [⟨chars "aXb", chars "d", chars "t", chars "loc"⟩] (chars "a%b") =
      [⟨chars "aXb", chars "d", chars "t", chars "loc"⟩] ∧
    ciAnyColumn (chars "a%b") ⟨chars "aXb", chars "d", chars "t", chars "loc"⟩ = false := by
  decide

theorem search_ci_substring_witness :
    search [⟨chars "Blue Hat", chars "d", chars "t", chars "Main Hall"⟩] (chars "hall") =
      [⟨chars "Blue Hat", chars "d", chars "t", chars "Main Hall"⟩] := by
  have h := (search_ci_substring
    [⟨chars "Blue Hat", chars "d", chars "t", chars "Main Hall"⟩]
    (chars "hall") (by decide)).2 (by decide)
  exact h.trans (by decide)

theorem foldl_fmt_eq_flatten (items : List Item) :
    ∀ acc : List Char, items.foldl (fun acc it => acc ++ fmtItem it) acc =
      acc ++ (items.map fmtItem).flatten := by
  induction items with
  | nil =>
    intro acc
    simp
  | cons x items ih =>
    intro acc
    rw [List.foldl_cons, ih, List.map_cons, List.flatten_cons, List.append_assoc]

theorem mem_flatten_decomp {x : List Char} {L : List (List Char)} (h : x ∈ L) :
    ∃ u w, L.flatten = u ++ x ++ w := by
  induction L with
  | nil => cases h
  | cons y L ih =>
    rcases List.mem_cons.1 h with rfl | h'
    · exact ⟨[], L.flatten, by simp⟩
    · obtain ⟨u, w, hw⟩ := ih h'
      refine ⟨y ++ u, w, ?_⟩
      rw [List.flatten_cons, hw]
      simp

theorem subAnyColumn_likeMatch (it : Item) (q : List Char)
    (h : subAnyColumn q it = true) : itemLikeMatch it q = true := by
  unfold subAnyColumn at h
  unfold itemLikeMatch
  rw [Bool.or_eq_true, Bool.or_eq_true, Bool.or_eq_true] at h
  rcases h with ((h | h) | h) | h
  all_goals simp [likeMatch_of_containsSeq _ _ h]

/-- Claim C7 (amended): for every chat message that is nonempty and has no
surrounding whitespace: if the message is a (case-sensitive) substring of
some stored row's four columns, the reply contains each such row's name
and location and the external completion service is not invoked; if no row
matches the LIKE pattern `%message%` (`%` matching any sequence, `_` any
single character, ASCII-case-insensitively), the message is forwarded to
the completion service and the reply is its returned text verbatim, or on
failure the string `"AI Error: <message>"`. -/
theorem chat_match_or_forward (db : List Item) (msg : List Char) (completion : Completion)
    (hstrip : pyStrip msg = msg) (hne : msg ≠ []) :
    ((∃ it ∈ db, subAnyColumn msg it = true) →
      (chat db msg completion).calledApi = false ∧
      (∀ it ∈ db, subAnyColumn msg it = true →
        containsSeq it.item_name (chat db msg completion).reply = true ∧
        containsSeq it.location (chat db msg completion).reply = true)) ∧
    ((∀ it ∈ db, itemLikeMatch it msg = false) →
      (chat db msg completion).calledApi = true ∧
      (chat db msg completion).sentMessage = some msg ∧
      (chat db msg completion).reply =
        (match completion with
         | .ok t => t
         | .fail e => chars "AI Error: " ++ e)) := by
  constructor
  · rintro ⟨it₀, hit₀, hsub₀⟩
    have hlike₀ : itemLikeMatch it₀ msg = true := subAnyColumn_likeMatch it₀ msg hsub₀
    have hmem₀ : it₀ ∈ db.filter (fun it => itemLikeMatch it msg) :=
      List.mem_filter.2 ⟨hit₀, hlike₀⟩
    have hne' : db.filter (fun it => itemLikeMatch it msg) ≠ [] :=
      List.ne_nil_of_mem hmem₀
    have hchat : chat db msg completion =
        ⟨(db.filter (fun it => itemLikeMatch it msg)).foldl
          (fun acc it => acc ++ fmtItem it) chatFoundHeader, false, none⟩ := by
      unfold chat
      rw [hstrip, if_neg hne, if_pos hne']
    rw [hchat]
    refine ⟨rfl, ?_⟩
    intro it hit hsub
    have hmem : it ∈ db.filter (fun x => itemLikeMatch x msg) :=
      List.mem_filter.2 ⟨hit, subAnyColumn_likeMatch it msg hsub⟩
    have hfmt : fmtItem it ∈ (db.filter (fun x => itemLikeMatch x msg)).map fmtItem :=
      List.mem_map_of_mem fmtItem hmem
    obtain ⟨u, w, hw⟩ := mem_flatten_decomp hfmt
    show containsSeq it.item_name ((db.filter (fun x => itemLikeMatch x msg)).foldl
        (fun acc x => acc ++ fmtItem x) chatFoundHeader) = true ∧
      containsSeq it.location ((db.filter (fun x => itemLikeMatch x msg)).foldl
        (fun acc x => acc ++ fmtItem x) chatFoundHeader) = true
    rw [foldl_fmt_eq_flatten, hw]
    constructor
    · refine (containsSeq_iff _ _).2
        ⟨chatFoundHeader ++ u ++ chars "<b>",
         chars "</b> - " ++ it.location ++ chars "<br>" ++ w, ?_⟩
      unfold fmtItem
      simp
    · refine (containsSeq_iff _ _).2
        ⟨chatFoundHeader ++ u ++ chars "<b>" ++ it.item_name ++ chars "</b> - ",
         chars "<br>" ++ w, ?_⟩
      unfold fmtItem
      simp
  · intro hnone
    have hfilter : db.filter (fun it => itemLikeMatch it msg) = [] :=
      List.filter_eq_nil_iff.2 (by intro a ha; simp [hnone a ha])
    have hchat : chat db msg completion =
        (match completion with
         | .ok t => ⟨t, true, some msg⟩
         | .fail e => ⟨chars "AI Error: " ++ e, true, some msg⟩) := by
      unfold chat
      rw [hstrip, if_neg hne, hfilter, if_neg (by simp)]
    rw [hchat]
    cases completion with
    | ok t => exact ⟨rfl, rfl, rfl⟩
    | fail e => exact ⟨rfl, rfl, rfl⟩

/-- Claim C7 as stated fails on the code: the message `"a%b"` is a
substring of no column of the stored row, so the claim requires it to be
forwarded to the completion service; but the LIKE query treats `%` as a
wildcard and matches the row, so the service is never called and the reply
is the item list, not the completion text. -/
theorem chat_match_or_forward_counterexample :
    (∀ it ∈ [(⟨chars "aXb", chars "d", chars "t", chars "loc"⟩ : Item)],
      subAnyColumn (chars "a%b") it = false) ∧
    (chat [⟨chars "aXb", chars "d", chars "t", chars "loc"⟩] (chars "a%b")
      (.ok (chars "AI reply"))).calledApi = false ∧
    (chat [⟨chars "aXb", chars "d", chars "t", chars "loc"⟩] (chars "a%b")
      (.ok (chars "AI reply"))).reply ≠ chars "AI reply" := by
  decide

theorem chat_match_or_forward_witness :
    (chat [⟨chars "Blue Hat", chars "d", chars "t", chars "Main Hall"⟩] (chars "Hat")
      (.ok (chars "hi"))).calledApi = false ∧
    containsSeq (chars "Blue Hat")
      (chat [⟨chars "Blue Hat", chars "d", chars "t", chars "Main Hall"⟩] (chars "Hat")
        (.ok (chars "hi"))).reply = true ∧
    containsSeq (chars "Main Hall")
      (chat [⟨chars "Blue Hat", chars "d", chars "t", chars "Main Hall"⟩] (chars "Hat")
        (.ok (chars "hi"))).reply = true := by
  have h := (chat_match_or_forward
    [⟨chars "Blue Hat", chars "d", chars "t", chars "Main Hall"⟩]
    (chars "Hat") (.ok (chars "hi")) (by decide) (by decide)).1
    ⟨⟨chars "Blue Hat", chars "d", chars "t", chars "Main Hall"⟩, by decide, by decide⟩
  have h2 := h.2 ⟨chars "Blue Hat", chars "d", chars "t", chars "Main Hall"⟩
    (by decide) (by decide)
  exact ⟨h.1, h2.1, h2.2⟩

